import Mathlib

/-!
Verification development for `pytrade.ext.dt` (Chinese A-share trading-day
oracle, holiday fetch/cache, and special-event tagging).

The Python module is shallowly embedded:

* A calendar date is its proleptic-Gregorian ordinal (a `Nat`, with
  `0001-01-01` being ordinal `1`), exactly as in CPython's `datetime`
  module; `ord2ymd` and `ymd2ord` are translations of CPython's
  `_ord2ymd` / `_ymd2ord`.
* The persisted/loaded holiday structure (`TradingDayIndex`) is an
  association list from year strings (`str(year)` in Python, `natToString`
  here) to lists of `MMDD` strings, in insertion order, mirroring a Python
  `dict` of lists.
* Network requests (`requests.get` plus `resp.json()`) are an oracle
  `net : Nat -> Option (List String)`; `none` models any per-year failure
  (connection error, non-2xx status, unparsable body, timeout), which the
  Python code turns into an empty per-year contribution.
* The JSON (de)serialisation performed through `json.dump(..., indent=2)`
  and `json.load` is modelled character-for-character for the shape the
  module actually persists: an object whose values are arrays of strings.
* Exceptions escaping `is_workday` are modelled by `PyResult.raised`.
-/

namespace Pytrade

/-! ## Calendar arithmetic (CPython `datetime` internals) -/

/-- CPython `_is_leap`: proleptic Gregorian leap-year test. -/
def isLeapYear (year : Nat) : Bool :=
  year % 4 == 0 && (year % 100 != 0 || year % 400 == 0)

/-- CPython `_DAYS_IN_MONTH` (1-based month). -/
def daysInMonth (m : Nat) : Nat :=
  [31, 28, 31, 30, 31, 30, 31, 31, 30, 31, 30, 31].getD (m - 1) 0

/-- CPython `_DAYS_BEFORE_MONTH` (1-based month). -/
def daysBeforeMonth (m : Nat) : Nat :=
  [0, 31, 59, 90, 120, 151, 181, 212, 243, 273, 304, 334].getD (m - 1) 0

/-- CPython `_days_before_year`. -/
def daysBeforeYear (year : Nat) : Nat :=
  let y := year - 1
  y * 365 + y / 4 - y / 100 + y / 400

/-- CPython `_ymd2ord`: `date(y, m, d).toordinal()`. -/
def ymd2ord (y m d : Nat) : Nat :=
  daysBeforeYear y + daysBeforeMonth m
    + (if m > 2 && isLeapYear y then 1 else 0) + d

/-- CPython `_ord2ymd`: ordinal to `(year, month, day)`. -/
def ord2ymd (nn : Nat) : Nat × Nat × Nat :=
  let n0 := nn - 1
  let n400 := n0 / 146097
  let r400 := n0 % 146097
  let n100 := r400 / 36524
  let r100 := r400 % 36524
  let n4 := r100 / 1461
  let r4 := r100 % 1461
  let n1 := r4 / 365
  let n := r4 % 365
  let year := n400 * 400 + 1 + n100 * 100 + n4 * 4 + n1
  if n1 == 4 || n100 == 4 then
    (year - 1, 12, 31)
  else
    let leap := n1 == 3 && (n4 != 24 || n100 == 3)
    let month := (n + 50) >>> 5
    let preceding := daysBeforeMonth month + (if month > 2 && leap then 1 else 0)
    if preceding > n then
      let month' := month - 1
      let preceding' := preceding - (daysInMonth month' + (if month' == 2 && leap then 1 else 0))
      (year, month', n - preceding' + 1)
    else
      (year, month, n - preceding + 1)

/-! ## `str(n)` and `%m%d`-style formatting -/

/-- The decimal digit character for `n < 10` (`chr(48 + n)`). -/
def digitChar (n : Nat) : Char := Char.ofNat (48 + n)

/-- Numeric value of a decimal digit character. -/
def charVal (c : Char) : Nat := c.toNat - 48

/-- Decimal digit list of `n`, most significant first; `fuel` bounds the
recursion (`fuel = n` always suffices). -/
def digitsAux : Nat → Nat → List Char
  | 0, n => [digitChar (n % 10)]
  | fuel + 1, n =>
    if n < 10 then [digitChar n] else digitsAux fuel (n / 10) ++ [digitChar (n % 10)]

/-- Model of Python `str(n)` for a natural number. -/
def natToString (n : Nat) : String := ⟨digitsAux n n⟩

/-- Model of `strftime` zero padding to width 2 (`%m` / `%d`). -/
def pad2 (n : Nat) : String :=
  if n < 10 then "0" ++ natToString n else natToString n

/-- Model of `date.strftime("%m%d")` for the date with ordinal `n`. -/
def mmddOf (n : Nat) : String :=
  let t := ord2ymd n
  pad2 t.2.1 ++ pad2 t.2.2

/-- Model of `str(date.year)` for the date with ordinal `n`. -/
def yearStrOf (n : Nat) : String := natToString (ord2ymd n).1

/-! ## The trading-day index and the pure oracle -/

/-- The `TradingDayIndex`: year string to list of `MMDD` markers, in insertion
order (a Python `dict` of lists). -/
abbrev TradingDayIndex := List (String × List String)

/-- Membership test at the heart of `is_workday`, for an already resolved
index: `date_str in set(all_trading_days.get(year, []))`. -/
def is_workday_pure (idx : TradingDayIndex) (n : Nat) : Bool :=
  ((idx.lookup (yearStrOf n)).getD []).contains (mmddOf n)

/-- The backward walk `while not is_workday(d): d -= timedelta(days=1)` of
`get_latest_cn_trading_day`, started at ordinal `n`.  `none` models the
walk running past `date.min` (ordinal 1), where the Python loop raises
`OverflowError` instead of producing a date. -/
def walk_back (idx : TradingDayIndex) : Nat → Option Nat
  | 0 => none
  | n + 1 => if is_workday_pure idx (n + 1) then some (n + 1) else walk_back idx n

/-- Translation of `get_latest_cn_trading_day`, over a resolved index: `today` is the
reference instant's date ordinal and `hour` its hour (a bare `date` is
combined with `time.min`, hence `hour = 0`).  Step 1 walks back to the
first trading day; step 2 re-runs the walk from the previous day when the
hour is before 9 and today itself qualified. -/
def get_latest_cn_trading_day (idx : TradingDayIndex) (today hour : Nat) : Option Nat :=
  match walk_back idx today with
  | none => none
  | some cand =>
    if hour < 9 ∧ cand = today then walk_back idx (today - 1) else some cand

/-! ## `is_workday` with its cache-file behaviour -/

/-- Observable state of the persisted cache file. -/
inductive CacheFile where
  | missing
  | corrupt
  | valid (idx : TradingDayIndex)

/-- Result of a Python call that may raise. -/
inductive PyResult where
  | ok (b : Bool)
  | raised (msg : String)
deriving DecidableEq

/-- Translation of `is_workday(date)` including its cache handling.  `fetched` is the
index returned by `asyncio.run(fetch_all_holiday_days())` when invoked.
When the cache file exists, `json.load` runs with no surrounding
`try`/`except`: an unparsable file raises `json.JSONDecodeError` straight
to the caller, which `PyResult.raised` records. -/
def is_workday_with_cache (cache : CacheFile) (fetched : TradingDayIndex) (n : Nat) :
    PyResult :=
  match cache with
  | .missing => .ok (is_workday_pure fetched n)
  | .corrupt => .raised "json.decoder.JSONDecodeError"
  | .valid all =>
    if (all.lookup (yearStrOf n)).isSome then .ok (is_workday_pure all n)
    else .ok (is_workday_pure fetched n)

/-! ## Holiday fetcher -/

/-- Translation of `_fetch_holiday_days_sync(year)`: one request to the provider.  The
oracle `net` stands for `requests.get(...)` followed by `resp.json()`;
`none` is any exception caught by the function's `try`/`except`, turned
into the empty dict `\x7b\x7d`; success yields `\x7bstr(year): data\x7d`. -/
def fetch_holiday_days_sync (net : Nat → Option (List String)) (year : Nat) :
    TradingDayIndex :=
  match net year with
  | some data => [(natToString year, data)]
  | none => []

/-- Python `dict` assignment `d[k] = v`: replace in place if the key is
present, else append. -/
def dictInsert (d : TradingDayIndex) (k : String) (v : List String) : TradingDayIndex :=
  if d.any (fun p => p.1 == k) then
    d.map (fun p => if p.1 == k then (k, v) else p)
  else d ++ [(k, v)]

/-- Python `dict.update(u)`. -/
def dictUpdate (d u : TradingDayIndex) : TradingDayIndex :=
  u.foldl (fun acc p => dictInsert acc p.1 p.2) d

/-- Translation of `fetch_all_holiday_days(start_year, end_year)` up to its cache-file
write: requests every year of `range(start_year, end_year + 1)` (the
`years_to_fetch` filter against the empty `all_holiday_days` keeps them
all) and merges the per-year results with `dict.update` in order.  The
bounded thread pool changes scheduling only: `asyncio.gather` returns
results in task order, so the merge is deterministic. -/
def fetch_all_holiday_days (net : Nat → Option (List String)) (start_year end_year : Nat) :
    TradingDayIndex :=
  let all0 : TradingDayIndex := []
  let years := List.range' start_year (end_year + 1 - start_year)
  let years_to_fetch := years.filter (fun y => !(all0.any (fun p => p.1 == natToString y)))
  let results := years_to_fetch.map (fetch_holiday_days_sync net)
  results.foldl (fun acc r => dictUpdate acc r) all0

/-! ## Special events -/

/-- The module's `SPECIAL_EVENTS` table: name, start string, end string,
in definition order. -/
def SPECIAL_EVENTS : List (String × String × String) :=
  [ ("亚洲金融危机", "1997-07-01", "1998-12-31"),
    ("互联网泡沫破灭", "2000-03-01", "2002-10-31"),
    ("全球金融危机", "2008-01-01", "2009-06-30"),
    ("欧债危机尾声", "2012-01-01", "2013-01-31"),
    ("股权分置改革", "2004-12-01", "2005-12-31"),
    ("2016年股市熔断", "2016-01-04", "2016-02-11"),
    ("2015年股灾", "2015-06-01", "2016-02-29"),
    ("熔断机制短暂失效", "2016-01-04", "2016-02-11"),
    ("2003年SARS疫情", "2003-02-01", "2003-07-31"),
    ("2020年新冠疫情初期", "2020-01-30", "2020-03-31"),
    ("2015年8·11汇改风波", "2015-08-11", "2016-01-31"),
    ("2018年中美贸易摩擦高峰", "2018-07-06", "2018-12-31"),
    ("2021年科技监管风暴", "2021-07-01", "2021-12-31"),
    ("2007年A股泡沫顶", "2006-07-01", "2007-10-31"),
    ("2020年二次熔断戳顶", "2020-02-03", "2020-02-12"),
    ("2015-06-26熔断日", "2015-06-26", "2015-06-26"),
    ("2016-02-08熔断日", "2016-02-08", "2016-02-08"),
    ("蚂蚁集团IPO叫停", "2020-11-03", "2020-11-05"),
    ("教育行业“双减”政策", "2021-07-24", "2021-07-26"),
    ("科技平台反垄断指导意见", "2021-09-24", "2021-09-27"),
    ("房地产“去地产金融化”表态", "2022-01-05", "2022-01-07"),
    ("碳达峰碳中和政策强化", "2022-03-07", "2022-03-08"),
    ("资本市场稳定表态", "2023-04-16", "2023-04-18"),
    ("房地产调控升级措施", "2023-07-18", "2023-07-20"),
    ("2024“两会”产业政策基调", "2024-03-05", "2024-03-07"),
    ("2024超预期降准", "2024-08-15", "2024-08-17"),
    ("2025科创板深度扶持表态", "2025-03-05", "2025-03-07") ]

/-- A calendar date as Python's `datetime.date` compares it. -/
structure CalDate where
  y : Nat
  m : Nat
  d : Nat
deriving DecidableEq

/-- Python `date` order (lexicographic on year, month, day). -/
def dateLeb (a b : CalDate) : Bool :=
  Nat.blt a.y b.y ||
    (Nat.beq a.y b.y &&
      (Nat.blt a.m b.m || (Nat.beq a.m b.m && Nat.ble a.d b.d)))

/-- Parse a `YYYY-MM-DD` literal, as both `datetime.strptime(s, "%Y-%m-%d")`
and `pd.to_datetime(s)` read the table's entries. -/
def parseYMD (s : String) : Option CalDate :=
  match s.data with
  | [a, b, c, d, '-', e, f, '-', g, h] =>
    if (a.isDigit && b.isDigit && c.isDigit && d.isDigit &&
        e.isDigit && f.isDigit && g.isDigit && h.isDigit) then
      some ⟨charVal a * 1000 + charVal b * 100 + charVal c * 10 + charVal d,
            charVal e * 10 + charVal f,
            charVal g * 10 + charVal h⟩
    else none
  | _ => none

/-- Translation of `load_special_events()`: the table with both endpoints parsed to dates.
`strptime` never fails on the concrete table, so the `filterMap` drops
nothing. -/
def load_special_events : List (String × CalDate × CalDate) :=
  SPECIAL_EVENTS.filterMap fun t =>
    match parseYMD t.2.1, parseYMD t.2.2 with
    | some a, some b => some (t.1, a, b)
    | _, _ => none

/-- Translation of `mark_special_events(date)`: first event in table order whose closed
interval contains the date, else `None`. -/
def mark_special_events (d : CalDate) : Option String :=
  (load_special_events.find? fun e => dateLeb e.2.1 d && dateLeb d e.2.2).map
    (fun e => e.1)

/-- Translation of `build_event_interval_index(events)`: the closed intervals (endpoints
via `pd.to_datetime`) and the labels, in table order.  On the concrete
table every endpoint parses, so the `filterMap` keeps the two lists
aligned exactly as the Python lists `intervals` and `labels` are. -/
def build_event_interval_index (events : List (String × String × String)) :
    List (CalDate × CalDate) × List String :=
  (events.filterMap fun t =>
      match parseYMD t.2.1, parseYMD t.2.2 with
      | some a, some b => some (a, b)
      | _, _ => none,
   events.map fun t => t.1)

/-- Translation of `mark_special_events_faster(trade_dates)`: starts from an all-`None`
column and, for each `(interval, label)` pair in table order, assigns
`label` to every date with `interval.left <= date <= interval.right`
(`Series.between` is inclusive on both ends); a later assignment
overwrites an earlier one. -/
def mark_special_events_faster (ds : List CalDate) : List (Option String) :=
  let p := build_event_interval_index SPECIAL_EVENTS
  let pairs := p.1.zip p.2
  ds.map fun d =>
    pairs.foldl
      (fun acc iv => if dateLeb iv.1.1 d && dateLeb d iv.1.2 then some iv.2 else acc)
      none

/-- Names of all events whose window contains `d`, in table order (used to
state which of the overlapping matches each tagger picks). -/
def eventsContaining (d : CalDate) : List String :=
  load_special_events.filterMap fun e =>
    if dateLeb e.2.1 d && dateLeb d e.2.2 then some e.1 else none

/-! ## The persisted JSON cache file

`fetch_all_holiday_days` persists the index with
`json.dump(all_holiday_days, f, ensure_ascii=False, indent=2)` and
`is_workday` reads it back with `json.load`.  Both are modelled below for
the one shape the module persists: a JSON object mapping strings to
arrays of strings.  `dumpChars` reproduces `json.dump`'s `indent=2`
output character for character (no escaping is needed for the digit-only
strings the module stores); the parser accepts any whitespace, as
`json.load` does. -/

/-- The opening brace, written via its code point. -/
def lbrace : Char := Char.ofNat 123

/-- The closing brace, written via its code point. -/
def rbrace : Char := Char.ofNat 125

/-- A quoted string, prepended to `rest`. -/
def quoteR (s : String) (rest : List Char) : List Char :=
  '"' :: (s.data ++ '"' :: rest)

/-- One array item at `indent=2` depth 2: four spaces then the quoted
string. -/
def itemR (v : String) (rest : List Char) : List Char :=
  ' ' :: ' ' :: ' ' :: ' ' :: quoteR v rest

/-- Array items joined by `",\n"`. -/
def itemsR : String → List String → List Char → List Char
  | v, [], rest => itemR v rest
  | v, w :: ws, rest => itemR v (',' :: '\n' :: itemsR w ws rest)

/-- A JSON array of strings as `json.dump(..., indent=2)` prints it at
depth 1. -/
def arrR : List String → List Char → List Char
  | [], rest => '[' :: ']' :: rest
  | v :: vs, rest => '[' :: '\n' :: itemsR v vs ('\n' :: ' ' :: ' ' :: ']' :: rest)

/-- One object entry: two spaces, quoted key, `": "`, the array. -/
def entryR (k : String) (vs : List String) (rest : List Char) : List Char :=
  ' ' :: ' ' :: quoteR k (':' :: ' ' :: arrR vs rest)

/-- Object entries joined by `",\n"`. -/
def entriesR : (String × List String) → TradingDayIndex → List Char → List Char
  | (k, vs), [], rest => entryR k vs rest
  | (k, vs), e :: es, rest => entryR k vs (',' :: '\n' :: entriesR e es rest)

/-- The full character stream `json.dump(idx, f, ensure_ascii=False,
indent=2)` writes. -/
def dumpChars : TradingDayIndex → List Char
  | [] => [lbrace, rbrace]
  | e :: es => lbrace :: '\n' :: entriesR e es ['\n', rbrace]

/-- Model of `json.dump(idx, ..., indent=2)` as a string. -/
def json_dump (idx : TradingDayIndex) : String := ⟨dumpChars idx⟩

/-- JSON insignificant whitespace. -/
def isWsChar (c : Char) : Bool := c == ' ' || c == '\n' || c == '\t' || c == '\r'

/-- Skip insignificant whitespace. -/
def skipWs (r : List Char) : List Char := r.dropWhile isWsChar

/-- A character that continues a simple (escape-free) JSON string. -/
def goodChar (c : Char) : Bool := !(c == '"' || c == '\\')

/-- Parse a quoted string.  Escape sequences do not occur in the module's
payloads (year and `MMDD` strings are digits), so a backslash is rejected
rather than decoded. -/
def parseStringLit (r : List Char) : Option (String × List Char) :=
  match r with
  | '"' :: rest =>
    match rest.dropWhile goodChar with
    | '"' :: r2 => some (⟨rest.takeWhile goodChar⟩, r2)
    | _ => none
  | _ => none

/-- Parse the items of a non-empty string array, up to and including the
closing bracket.  `fuel` bounds the number of commas; the callers pass
the total input length, which always suffices. -/
def parseItems : Nat → List Char → Option (List String × List Char)
  | 0, r =>
    match parseStringLit (skipWs r) with
    | some (s, r1) =>
      match skipWs r1 with
      | ']' :: r2 => some ([s], r2)
      | _ => none
    | none => none
  | fuel + 1, r =>
    match parseStringLit (skipWs r) with
    | some (s, r1) =>
      match skipWs r1 with
      | ']' :: r2 => some ([s], r2)
      | ',' :: r2 =>
        match parseItems fuel r2 with
        | some (ss, r3) => some (s :: ss, r3)
        | none => none
      | _ => none
    | none => none

/-- Parse a string array after its opening bracket. -/
def parseArray (fuel : Nat) (r : List Char) : Option (List String × List Char) :=
  match skipWs r with
  | ']' :: r2 => some ([], r2)
  | _ => parseItems fuel r

/-- Parse one `"key": [ ... ]` entry. -/
def parseEntry (fuel : Nat) (r : List Char) :
    Option ((String × List String) × List Char) :=
  match parseStringLit (skipWs r) with
  | some (k, r1) =>
    match skipWs r1 with
    | ':' :: r2 =>
      match skipWs r2 with
      | '[' :: r3 =>
        match parseArray fuel r3 with
        | some (vs, r4) => some ((k, vs), r4)
        | none => none
      | _ => none
    | _ => none
  | none => none

/-- Parse the entries of a non-empty object, up to and including the
closing brace. -/
def parseEntries : Nat → List Char → Option (TradingDayIndex × List Char)
  | 0, r =>
    match parseEntry 0 r with
    | some (e, r1) =>
      match skipWs r1 with
      | c :: r2 => if c = rbrace then some ([e], r2) else none
      | [] => none
    | none => none
  | fuel + 1, r =>
    match parseEntry (fuel + 1) r with
    | some (e, r1) =>
      match skipWs r1 with
      | c :: r2 =>
        if c = rbrace then some ([e], r2)
        else if c = ',' then
          match parseEntries fuel r2 with
          | some (es, r3) => some (e :: es, r3)
          | none => none
        else none
      | [] => none
    | none => none

/-- Model of `json.load` for the persisted shape: a whole document holding one
object whose values are arrays of strings; `none` models
`json.JSONDecodeError`. -/
def json_load (s : String) : Option TradingDayIndex :=
  match skipWs s.data with
  | c :: r =>
    if c = lbrace then
      match skipWs r with
      | c2 :: r2 =>
        if c2 = rbrace then (if skipWs r2 = [] then some [] else none)
        else
          match parseEntries s.data.length r with
          | some (es, rest) => if skipWs rest = [] then some es else none
          | none => none
      | [] => none
    else none
  | [] => none

/-- Well-formedness from the spec's data model: keys are 4-digit year
strings and every value is a 4-digit `MMDD` string. -/
def fourDigits (s : String) : Bool :=
  s.data.length == 4 && s.data.all Char.isDigit

/-- A well-formed `TradingDayIndex`. -/
def wellFormedIndex (idx : TradingDayIndex) : Bool :=
  idx.all fun p => fourDigits p.1 && p.2.all fourDigits

/-! ## The cache-file write

`fetch_all_holiday_days` writes with `open(HOLIDAYS_CACHE_PATH, "w")`:
opening with mode `"w"` first truncates the file, then `json.dump`
streams the new contents.  `save_states` lists the observable contents of
the cache file along that sequence: the previous contents, the empty file
right after truncation, and the completed new contents. -/
def save_states (old : String) (idx : TradingDayIndex) : List String :=
  [old, "", json_dump idx]

/-- Decimal value of a digit string, most significant first. -/
def valOfDigits (cs : List Char) : Nat :=
  cs.foldl (fun a c => 10 * a + charVal c) 0

/-- A 5-year batch in which the 2001 and 2003 requests fail. -/
def netTwoFailures : Nat → Option (List String) :=
  fun y => if y == 2001 || y == 2003 then none else some ["0102"]

/-- Every key and value string of the index consists of characters that
need no JSON escaping. -/
def GoodIdx (idx : TradingDayIndex) : Prop :=
  ∀ p ∈ idx, (∀ c ∈ p.1.data, goodChar c = true) ∧
    ∀ v ∈ p.2, ∀ c ∈ v.data, goodChar c = true

/-- Fuel needed to parse a dumped index: one unit per entry, enough for
the longest value list at each step. -/
def needFuel : TradingDayIndex → Nat
  | [] => 0
  | (_, vs) :: es => max vs.length (needFuel es) + 1

/-! ## Properties of the backward walk -/

theorem walk_back_le {idx : TradingDayIndex} :
    ∀ {n r : Nat}, walk_back idx n = some r → r ≤ n := by
  intro n
  induction n with
  | zero => intro r h; simp [walk_back] at h
  | succ n ih =>
    intro r h
    by_cases hw : is_workday_pure idx (n + 1)
    · simp [walk_back, hw] at h
      omega
    · simp [walk_back, hw] at h
      exact Nat.le_succ_of_le (ih h)

theorem walk_back_pos {idx : TradingDayIndex} :
    ∀ {n r : Nat}, walk_back idx n = some r → 1 ≤ r := by
  intro n
  induction n with
  | zero => intro r h; simp [walk_back] at h
  | succ n ih =>
    intro r h
    by_cases hw : is_workday_pure idx (n + 1)
    · simp [walk_back, hw] at h
      omega
    · simp [walk_back, hw] at h
      exact ih h

theorem walk_back_workday {idx : TradingDayIndex} :
    ∀ {n r : Nat}, walk_back idx n = some r → is_workday_pure idx r = true := by
  intro n
  induction n with
  | zero => intro r h; simp [walk_back] at h
  | succ n ih =>
    intro r h
    by_cases hw : is_workday_pure idx (n + 1)
    · simp [walk_back, hw] at h
      rw [h] at hw
      exact hw
    · simp [walk_back, hw] at h
      exact ih h

theorem walk_back_maximal {idx : TradingDayIndex} :
    ∀ {n r : Nat}, walk_back idx n = some r →
      ∀ x, r < x → x ≤ n → is_workday_pure idx x = false := by
  intro n
  induction n with
  | zero => intro r h; simp [walk_back] at h
  | succ n ih =>
    intro r h x hrx hxn
    by_cases hw : is_workday_pure idx (n + 1)
    · simp [walk_back, hw] at h
      omega
    · simp [walk_back, hw] at h
      rcases Nat.lt_or_ge x (n + 1) with hx | hx
      · exact ih h x hrx (by omega)
      · have : x = n + 1 := by omega
        rw [this]
        exact Bool.not_eq_true _ ▸ (by simpa using hw)

theorem walk_back_of_exists {idx : TradingDayIndex} :
    ∀ {n : Nat}, (∃ r, 1 ≤ r ∧ r ≤ n ∧ is_workday_pure idx r = true) →
      ∃ r, walk_back idx n = some r := by
  intro n
  induction n with
  | zero =>
    rintro ⟨r, h1, h2, _⟩
    omega
  | succ n ih =>
    rintro ⟨r, h1, h2, h3⟩
    by_cases hw : is_workday_pure idx (n + 1)
    · exact ⟨n + 1, by simp [walk_back, hw]⟩
    · have hr : r ≤ n := by
        rcases Nat.lt_or_ge r (n + 1) with h | h
        · omega
        · have : r = n + 1 := by omega
          rw [this] at h3
          exact absurd h3 hw
      rcases ih ⟨r, h1, hr, h3⟩ with ⟨r', hr'⟩
      exact ⟨r', by simp [walk_back, hw, hr']⟩

theorem walk_back_self {idx : TradingDayIndex} {n : Nat} (h1 : 1 ≤ n)
    (h2 : is_workday_pure idx n = true) : walk_back idx n = some n := by
  cases n with
  | zero => omega
  | succ n => simp [walk_back, h2]

/-! ## Claims about `get_latest_cn_trading_day` -/

/-- C3 (counterexample): with the index holding exactly one trading day,
`0001-01-04` (ordinal 4, year key `"1"`, marker `"0104"`), that trading
day lies on (not after) the reference date, so the claim's hypothesis
holds; yet at reference instant `0001-01-04 08:00` the second backward
walk starts the day before the only trading day, runs past `date.min`,
and the call produces no date at all (the Python loop raises
`OverflowError`), not a trading day `<=` the reference date. -/
theorem get_latest_underflow_cx :
    is_workday_pure [("1", ["0104"])] 4 = true ∧
      get_latest_cn_trading_day [("1", ["0104"])] 4 8 = none := by
  constructor
  · decide
  · decide

/-- C3 (amended): if some trading day with ordinal at least 1 lies on or
before the reference date — and, whenever the reference hour is before 9
and the reference date is itself a trading day, some trading day lies
strictly before it — then `get_latest_cn_trading_day` returns a date that
is at most the reference date and is itself a trading day. -/
theorem get_latest_sound (idx : TradingDayIndex) (today hour : Nat)
    (h1 : ∃ r, 1 ≤ r ∧ r ≤ today ∧ is_workday_pure idx r = true)
    (h2 : hour < 9 → is_workday_pure idx today = true →
      ∃ r, 1 ≤ r ∧ r < today ∧ is_workday_pure idx r = true) :
    ∃ r, get_latest_cn_trading_day idx today hour = some r ∧
      r ≤ today ∧ is_workday_pure idx r = true := by
  rcases walk_back_of_exists h1 with ⟨cand, hcand⟩
  unfold get_latest_cn_trading_day
  rw [hcand]
  by_cases hc : hour < 9 ∧ cand = today
  · have htoday : is_workday_pure idx today = true := by
      rw [← hc.2]
      exact walk_back_workday hcand
    rcases h2 hc.1 htoday with ⟨r, hr1, hr2, hr3⟩
    have : ∃ p, walk_back idx (today - 1) = some p :=
      walk_back_of_exists ⟨r, hr1, by omega, hr3⟩
    rcases this with ⟨p, hp⟩
    refine ⟨p, ?_, ?_, walk_back_workday hp⟩
    · simp [hc, hp]
    · have := walk_back_le hp
      omega
  · refine ⟨cand, by simp [hc], walk_back_le hcand, walk_back_workday hcand⟩

/-- C3 (witness for the amended theorem): with trading days `2024-03-01`
and `2024-03-04` cached, the reference instant `2024-03-04 08:00`
satisfies both hypotheses and the call yields a trading day on or before
the reference date. -/
theorem get_latest_sound_witness :
    ∃ r, get_latest_cn_trading_day [("2024", ["0301", "0304"])] (ymd2ord 2024 3 4) 8 =
        some r ∧
      r ≤ ymd2ord 2024 3 4 ∧ is_workday_pure [("2024", ["0301", "0304"])] r = true :=
  get_latest_sound [("2024", ["0301", "0304"])] (ymd2ord 2024 3 4) 8
    ⟨ymd2ord 2024 3 4, by decide, by decide, by decide⟩
    (fun _ _ => ⟨ymd2ord 2024 3 1, by decide, by decide, by decide⟩)

/-- C4: for a trading day `T` with some trading day strictly before it in
the index, the reference instant `T` at `08:59` (hour 8) yields the
latest trading day strictly before `T` — a trading day below `T` with no
trading day between it and `T` — while `T` at `09:00` (hour 9) yields `T`
itself. -/
theorem get_latest_cutoff_hour (idx : TradingDayIndex) (T : Nat)
    (hT : is_workday_pure idx T = true)
    (hprev : ∃ r, 1 ≤ r ∧ r < T ∧ is_workday_pure idx r = true) :
    (∃ p, get_latest_cn_trading_day idx T 8 = some p ∧
        p < T ∧ is_workday_pure idx p = true ∧
        ∀ x, p < x → x < T → is_workday_pure idx x = false) ∧
      get_latest_cn_trading_day idx T 9 = some T := by
  have hT1 : 1 ≤ T := by
    rcases hprev with ⟨r, h1, h2, _⟩
    omega
  have hwT : walk_back idx T = some T := walk_back_self hT1 hT
  constructor
  · rcases hprev with ⟨r, h1, h2, h3⟩
    rcases @walk_back_of_exists idx (T - 1) ⟨r, h1, by omega, h3⟩ with ⟨p, hp⟩
    refine ⟨p, ?_, ?_, walk_back_workday hp, ?_⟩
    · unfold get_latest_cn_trading_day
      rw [hwT]
      simp [hp]
    · have := walk_back_le hp
      omega
    · intro x hx1 hx2
      exact walk_back_maximal hp x hx1 (by omega)
  · unfold get_latest_cn_trading_day
    rw [hwT]
    simp

/-- C4 (witness): `T = 2024-03-04`, prior trading day `2024-03-01`; at
hour 8 the result is a trading day strictly before `T` with nothing
between, at hour 9 the result is `T`. -/
theorem get_latest_cutoff_hour_witness :
    (∃ p, get_latest_cn_trading_day [("2024", ["0301", "0304"])] (ymd2ord 2024 3 4) 8 =
          some p ∧
        p < ymd2ord 2024 3 4 ∧ is_workday_pure [("2024", ["0301", "0304"])] p = true ∧
        ∀ x, p < x → x < ymd2ord 2024 3 4 →
          is_workday_pure [("2024", ["0301", "0304"])] x = false) ∧
      get_latest_cn_trading_day [("2024", ["0301", "0304"])] (ymd2ord 2024 3 4) 9 =
        some (ymd2ord 2024 3 4) :=
  get_latest_cutoff_hour [("2024", ["0301", "0304"])] (ymd2ord 2024 3 4) (by decide)
    ⟨ymd2ord 2024 3 1, by decide, by decide, by decide⟩

/-- C5: whenever two queries (at any hours) both produce a result and the
first reference date is strictly before the second, the first result is
at most the second: the resolved latest trading day is monotone in the
reference instant. -/
theorem get_latest_monotone (idx : TradingDayIndex) (t1 h1 t2 h2 r1 r2 : Nat)
    (ha : get_latest_cn_trading_day idx t1 h1 = some r1)
    (hb : get_latest_cn_trading_day idx t2 h2 = some r2)
    (hlt : t1 < t2) : r1 ≤ r2 := by
  have split :
      ∀ {t h r : Nat}, get_latest_cn_trading_day idx t h = some r →
        walk_back idx t = some r ∨ walk_back idx (t - 1) = some r := by
    intro t h r hr
    unfold get_latest_cn_trading_day at hr
    rcases hw : walk_back idx t with _ | cand
    · rw [hw] at hr
      exact absurd hr (by simp)
    · rw [hw] at hr
      have hr' : (if h < 9 ∧ cand = t then walk_back idx (t - 1) else some cand) =
          some r := hr
      by_cases hc : h < 9 ∧ cand = t
      · rw [if_pos hc] at hr'
        exact Or.inr hr'
      · rw [if_neg hc] at hr'
        injection hr' with hr'
        exact Or.inl (by rw [hr'])
  have ha1 : r1 ≤ t1 := by
    rcases split ha with h | h
    · exact walk_back_le h
    · have := walk_back_le h
      omega
  have ha2 : is_workday_pure idx r1 = true := by
    rcases split ha with h | h
    · exact walk_back_workday h
    · exact walk_back_workday h
  rcases split hb with h | h
  · by_contra hcon
    have := walk_back_maximal h r1 (by omega) (by omega)
    rw [ha2] at this
    exact absurd this (by simp)
  · by_contra hcon
    have := walk_back_maximal h r1 (by omega) (by omega)
    rw [ha2] at this
    exact absurd this (by simp)

/-- C5 (witness): reference dates `2024-03-01` and `2024-03-04` (both at
hour 10) yield `2024-03-01 <= 2024-03-04`. -/
theorem get_latest_monotone_witness : ymd2ord 2024 3 1 ≤ ymd2ord 2024 3 4 :=
  get_latest_monotone [("2024", ["0301", "0304"])]
    (ymd2ord 2024 3 1) 10 (ymd2ord 2024 3 4) 10
    (ymd2ord 2024 3 1) (ymd2ord 2024 3 4)
    (by decide) (by decide) (by decide)

/-- C10: a bare date is combined with `time.min`, so the hour is 0; then
whenever the call terminates with a result, that result is strictly
before the reference date — even when the reference date is itself a
trading day, the pre-9:00 branch steps past it. -/
theorem get_latest_bare_date_strict (idx : TradingDayIndex) (today r : Nat)
    (h : get_latest_cn_trading_day idx today 0 = some r) : r < today := by
  unfold get_latest_cn_trading_day at h
  rcases hw : walk_back idx today with _ | cand
  · rw [hw] at h
    exact absurd h (by simp)
  · rw [hw] at h
    have h' : (if 0 < 9 ∧ cand = today then walk_back idx (today - 1) else some cand) =
        some r := h
    by_cases hc : (0 : Nat) < 9 ∧ cand = today
    · rw [if_pos hc] at h'
      have hceq := hc.2
      have hle := walk_back_le h'
      have hpos := walk_back_pos hw
      omega
    · rw [if_neg hc] at h'
      injection h' with h'
      have hne : cand ≠ today := fun he => hc ⟨by omega, he⟩
      have hle := walk_back_le hw
      omega

/-- C10 (witness): the bare date `2024-03-02` (a non-trading Saturday in
the fixture) resolves to a strictly earlier date. -/
theorem get_latest_bare_date_strict_witness :
    ymd2ord 2024 3 1 < ymd2ord 2024 3 2 :=
  get_latest_bare_date_strict [("2024", ["0301", "0304"])] (ymd2ord 2024 3 2)
    (ymd2ord 2024 3 1) (by decide)

/-! ## Claims about `is_workday` and the cache file -/

/-- C2 (counterexample): with the cache file present but unparsable and a
fetch that would report `2024-03-04` as a trading day, `is_workday` does
not produce the treat-as-missing answer: it raises `json.JSONDecodeError`
to the caller (the `json.load` call has no surrounding `try`/`except`). -/
theorem is_workday_corrupt_cx :
    is_workday_with_cache CacheFile.corrupt [("2024", ["0304"])] (ymd2ord 2024 3 4) =
        PyResult.raised "json.decoder.JSONDecodeError" ∧
      is_workday_with_cache CacheFile.missing [("2024", ["0304"])] (ymd2ord 2024 3 4) =
        PyResult.ok true ∧
      is_workday_with_cache CacheFile.corrupt [("2024", ["0304"])] (ymd2ord 2024 3 4) ≠
        is_workday_with_cache CacheFile.missing [("2024", ["0304"])] (ymd2ord 2024 3 4) := by
  refine ⟨by decide, by decide, by decide⟩

/-- C2 (amended): when the persisted cache file exists but is not
parseable, `is_workday` propagates the parse error to the caller for
every date and every fetch outcome; the silent re-fetch path runs only
when the file is missing, or when the file parses and the date's year is
absent from it. -/
theorem is_workday_corrupt_raises (fetched : TradingDayIndex) (n : Nat) :
    is_workday_with_cache CacheFile.corrupt fetched n =
        PyResult.raised "json.decoder.JSONDecodeError" ∧
      is_workday_with_cache CacheFile.missing fetched n =
        PyResult.ok (is_workday_pure fetched n) ∧
      ∀ all : TradingDayIndex, (all.lookup (yearStrOf n)).isSome = false →
        is_workday_with_cache (CacheFile.valid all) fetched n =
          PyResult.ok (is_workday_pure fetched n) := by
  refine ⟨rfl, rfl, ?_⟩
  intro all hall
  simp [is_workday_with_cache, hall]

/-- C2 (witness for the amended theorem): concrete corrupt-cache query
raising, and the year-absent valid cache falling through to the fetch
result. -/
theorem is_workday_corrupt_raises_witness :
    is_workday_with_cache CacheFile.corrupt [("2024", ["0304"])] (ymd2ord 2024 3 4) =
        PyResult.raised "json.decoder.JSONDecodeError" ∧
      is_workday_with_cache (CacheFile.valid [("2023", ["0104"])]) [("2024", ["0304"])]
          (ymd2ord 2024 3 4) =
        PyResult.ok (is_workday_pure [("2024", ["0304"])] (ymd2ord 2024 3 4)) :=
  ⟨(is_workday_corrupt_raises [("2024", ["0304"])] (ymd2ord 2024 3 4)).1,
   (is_workday_corrupt_raises [("2024", ["0304"])] (ymd2ord 2024 3 4)).2.2
     [("2023", ["0104"])] (by decide)⟩

/-! ## `str(n)` is injective -/

theorem charVal_digitChar {n : Nat} (h : n < 10) : charVal (digitChar n) = n := by
  interval_cases n <;> decide

theorem valOfDigits_append_aux (cs : List Char) :
    ∀ a : Nat, cs.foldl (fun a c => 10 * a + charVal c) a =
      a * 10 ^ cs.length + cs.foldl (fun a c => 10 * a + charVal c) 0 := by
  induction cs with
  | nil => intro a; simp
  | cons c cs ih =>
    intro a
    simp only [List.foldl_cons, List.length_cons]
    rw [ih (10 * a + charVal c), ih (10 * 0 + charVal c)]
    ring

theorem valOfDigits_snoc (cs : List Char) (c : Char) :
    valOfDigits (cs ++ [c]) = 10 * valOfDigits cs + charVal c := by
  unfold valOfDigits
  rw [List.foldl_append]
  simp [valOfDigits_append_aux [c] (List.foldl _ 0 cs)]
  ring

theorem valOfDigits_digitsAux :
    ∀ fuel n : Nat, n ≤ fuel → valOfDigits (digitsAux fuel n) = n := by
  intro fuel
  induction fuel with
  | zero =>
    intro n h
    have : n = 0 := by omega
    subst this
    decide
  | succ fuel ih =>
    intro n h
    by_cases hn : n < 10
    · simp [digitsAux, hn, valOfDigits, charVal_digitChar hn]
    · have hq : n / 10 ≤ fuel := by
        have := Nat.div_lt_self (by omega : 0 < n) (by omega : 1 < 10)
        omega
      simp only [digitsAux, if_neg hn]
      rw [valOfDigits_snoc, ih _ hq, charVal_digitChar (Nat.mod_lt n (by omega))]
      omega

theorem natToString_injective {a b : Nat} (h : natToString a = natToString b) :
    a = b := by
  unfold natToString at h
  have hd : digitsAux a a = digitsAux b b := congrArg String.data h
  have := valOfDigits_digitsAux a a (le_refl a)
  rw [hd, valOfDigits_digitsAux b b (le_refl b)] at this
  omega

/-! ## Claims about the fetch batch -/

theorem fetch_fold_keys (net : Nat → Option (List String)) :
    ∀ (years : List Nat) (acc : TradingDayIndex),
      years.Nodup →
      (∀ y ∈ years, ∀ p ∈ acc, p.1 ≠ natToString y) →
      ((years.map (fetch_holiday_days_sync net)).foldl
            (fun acc r => dictUpdate acc r) acc).map Prod.fst =
        acc.map Prod.fst ++
          ((years.filter fun y => (net y).isSome).map natToString) := by
  intro years
  induction years with
  | nil => intro acc _ _; simp
  | cons y ys ih =>
    intro acc hnd hfresh
    have hndtail : ys.Nodup := (List.nodup_cons.mp hnd).2
    have hyne : y ∉ ys := (List.nodup_cons.mp hnd).1
    cases hnet : net y with
    | none =>
      have hfirst : fetch_holiday_days_sync net y = [] := by
        simp [fetch_holiday_days_sync, hnet]
      simp only [List.map_cons, List.foldl_cons, hfirst]
      have hstep : dictUpdate acc [] = acc := rfl
      rw [hstep, ih acc hndtail (fun y' hy' => hfresh y' (List.mem_cons_of_mem _ hy'))]
      simp [List.filter_cons, hnet]
    | some data =>
      have hfirst : fetch_holiday_days_sync net y = [(natToString y, data)] := by
        simp [fetch_holiday_days_sync, hnet]
      simp only [List.map_cons, List.foldl_cons, hfirst]
      have hany : (acc.any fun p => p.1 == natToString y) = false := by
        rw [List.any_eq_false]
        intro p hp
        simpa using hfresh y (List.mem_cons_self y ys) p hp
      have hstep : dictUpdate acc [(natToString y, data)] =
          acc ++ [(natToString y, data)] := by
        show dictInsert acc (natToString y) data = acc ++ [(natToString y, data)]
        simp [dictInsert, hany]
      rw [hstep]
      have hfresh' : ∀ y' ∈ ys, ∀ p ∈ acc ++ [(natToString y, data)],
          p.1 ≠ natToString y' := by
        intro y' hy' p hp
        rcases List.mem_append.mp hp with hpa | hpb
        · exact hfresh y' (List.mem_cons_of_mem _ hy') p hpa
        · have hpe : p = (natToString y, data) := by simpa using hpb

          rw [hpe]
          intro hcon
          exact hyne (natToString_injective hcon ▸ hy')
      rw [ih (acc ++ [(natToString y, data)]) hndtail hfresh']
      simp [List.filter_cons, hnet]

/-- C6: a per-year failure contributes nothing to the merged index (the
`try`/`except` in `_fetch_holiday_days_sync` turns every network, status,
parse, or timeout error into an empty dict and the batch continues), so
the returned index has exactly the successful years as keys, in request
order; in particular, a batch of the 5 years 2000-2004 in which 2001 and
2003 fail yields exactly the 3 keys `"2000"`, `"2002"`, `"2004"`, and no
exception reaches the caller (the model of the batch is a total
function). -/
theorem fetch_per_year_isolation :
    (∀ (net : Nat → Option (List String)) (s e : Nat),
        (fetch_all_holiday_days net s e).map Prod.fst =
          ((List.range' s (e + 1 - s)).filter fun y => (net y).isSome).map
            natToString) ∧
      (fetch_all_holiday_days netTwoFailures 2000 2004).map Prod.fst =
        ["2000", "2002", "2004"] := by
  constructor
  · intro net s e
    show (List.foldl (fun acc r => dictUpdate acc r) ([] : TradingDayIndex)
          (List.map (fetch_holiday_days_sync net)
            (List.filter
              (fun y => !(List.any ([] : TradingDayIndex) fun p => p.1 == natToString y))
              (List.range' s (e + 1 - s))))).map Prod.fst = _
    have hfilter :
        (List.range' s (e + 1 - s)).filter
            (fun y => !(List.any ([] : TradingDayIndex) fun p => p.1 == natToString y)) =
          List.range' s (e + 1 - s) := by
      simp
    rw [hfilter]
    simpa using
      fetch_fold_keys net (List.range' s (e + 1 - s)) [] (List.nodup_range' _ _)
        (by simp)
  · decide

/-- Unfolding of `fetch_all_holiday_days`: the `years_to_fetch` filter
against the initially empty dict keeps every year of the range. -/
theorem fetch_all_unfold (net : Nat → Option (List String)) (s e : Nat) :
    fetch_all_holiday_days net s e =
      ((List.range' s (e + 1 - s)).map (fetch_holiday_days_sync net)).foldl
        (fun acc r => dictUpdate acc r) [] := by
  show (List.foldl (fun acc r => dictUpdate acc r) ([] : TradingDayIndex)
        (List.map (fetch_holiday_days_sync net)
          (List.filter
            (fun y => !(List.any ([] : TradingDayIndex) fun p => p.1 == natToString y))
            (List.range' s (e + 1 - s))))) = _
  have hfilter :
      (List.range' s (e + 1 - s)).filter
          (fun y => !(List.any ([] : TradingDayIndex) fun p => p.1 == natToString y)) =
        List.range' s (e + 1 - s) := by
    simp
  rw [hfilter]

theorem fetch_fold_all_none (net : Nat → Option (List String)) :
    ∀ years : List Nat, (∀ y ∈ years, net y = none) →
      ((years.map (fetch_holiday_days_sync net)).foldl
          (fun acc r => dictUpdate acc r) ([] : TradingDayIndex)) = [] := by
  intro years
  induction years with
  | nil => intro _; rfl
  | cons y ys ih =>
    intro h
    have hy : fetch_holiday_days_sync net y = [] := by
      simp [fetch_holiday_days_sync, h y (List.mem_cons_self y ys)]
    simp only [List.map_cons, List.foldl_cons, hy]
    exact ih fun y' hy' => h y' (List.mem_cons_of_mem _ hy')

/-- C9: when every per-year request of the batch fails (or the year range
is empty), `fetch_all_holiday_days` still reaches its cache write and
persists the empty object: whatever the cache file held before, its final
contents are `json.dump` of the empty index — which parses back to an
index with no year keys, so every previously cached year is erased from
durable storage. -/
theorem fetch_all_failed_erases_cache (net : Nat → Option (List String))
    (s e : Nat) (old : String)
    (h : ∀ y ∈ List.range' s (e + 1 - s), net y = none) :
    fetch_all_holiday_days net s e = [] ∧
      save_states old (fetch_all_holiday_days net s e) = [old, "", json_dump []] ∧
      json_load (json_dump []) = some [] := by
  have hempty : fetch_all_holiday_days net s e = [] := by
    rw [fetch_all_unfold]
    exact fetch_fold_all_none net _ h
  refine ⟨hempty, ?_, by decide⟩
  rw [hempty]
  rfl

/-- C9 (witness): a 2000-2004 batch in which every request fails, over a
nonempty previous cache file. -/
theorem fetch_all_failed_erases_cache_witness :
    fetch_all_holiday_days (fun _ => none) 2000 2004 = [] ∧
      save_states (json_dump [("2023", ["0104"])])
          (fetch_all_holiday_days (fun _ => none) 2000 2004) =
        [json_dump [("2023", ["0104"])], "", json_dump []] ∧
      json_load (json_dump []) = some [] :=
  fetch_all_failed_erases_cache (fun _ => none) 2000 2004
    (json_dump [("2023", ["0104"])]) (by simp)

/-! ## Claims about the cache write -/

/-- C8 (counterexample): with a nonempty previous cache and a nonempty new
index, the write sequence passes through the empty file — an observable
state that is neither the complete old contents nor the complete new
contents, so the overwrite is not atomic. -/
theorem save_not_atomic_cx :
    "" ∈ save_states (json_dump [("2023", ["0104"])]) [("2024", ["0102"])] ∧
      ("" : String) ≠ json_dump [("2023", ["0104"])] ∧
      ("" : String) ≠ json_dump [("2024", ["0102"])] :=
  ⟨by decide, by decide, by decide⟩

/-- C8 (amended): `fetch_all_holiday_days` overwrites the cache file in
place and non-atomically: `open(path, "w")` truncates first, so the
observable file states are the old contents, then the empty file, then
the complete serialized new index; the final state is exactly
`json.dump` of the new index, and whenever the old contents were
nonempty, some intermediate state is neither the old nor the new
contents. -/
theorem save_truncate_then_write (old : String) (idx : TradingDayIndex) :
    save_states old idx = [old, "", json_dump idx] ∧
      json_dump idx ≠ "" ∧
      (save_states old idx).getLast? = some (json_dump idx) ∧
      (old ≠ "" → ∃ st ∈ save_states old idx, st ≠ old ∧ st ≠ json_dump idx) := by
  have hne : json_dump idx ≠ "" := by
    cases idx with
    | nil => decide
    | cons e es =>
      intro hcon
      have hdata : dumpChars (e :: es) = [] := congrArg String.data hcon
      simp [dumpChars] at hdata
  refine ⟨rfl, hne, rfl, ?_⟩
  intro hold
  exact ⟨"", by simp [save_states], fun hcon => hold hcon.symm, fun hcon => hne hcon.symm⟩

/-- C8 (witness for the amended theorem): concrete nonempty old and new
contents, with the truncated state differing from both. -/
theorem save_truncate_then_write_witness :
    ∃ st ∈ save_states (json_dump [("2023", ["0104"])]) [("2024", ["0102"])],
      st ≠ json_dump [("2023", ["0104"])] ∧ st ≠ json_dump [("2024", ["0102"])] :=
  (save_truncate_then_write (json_dump [("2023", ["0104"])]) [("2024", ["0102"])]).2.2.2
    (by decide)

/-! ## Claims about event tagging -/

/-- C1 (counterexample): `2016-01-05` lies in four overlapping windows.
The scalar tagger returns the first match in table order
(`"2016年股市熔断"`), while the bulk tagger's per-interval assignments
overwrite earlier labels and it returns the last match
(`"2015年8·11汇改风波"`), so `tag(d) != tagBulk([d])[0]` there. -/
theorem mark_events_disagree_cx :
    mark_special_events ⟨2016, 1, 5⟩ = some "2016年股市熔断" ∧
      mark_special_events_faster [⟨2016, 1, 5⟩] = [some "2015年8·11汇改风波"] ∧
      mark_special_events_faster [⟨2016, 1, 5⟩] ≠ [mark_special_events ⟨2016, 1, 5⟩] :=
  ⟨by decide, by decide, by decide⟩

theorem find_map_eq_head_filterMap {α β : Type} (p : α → Bool) (f : α → β) :
    ∀ l : List α,
      (l.find? p).map f =
        (l.filterMap fun e => if p e then some (f e) else none).head? := by
  intro l
  induction l with
  | nil => rfl
  | cons e es ih =>
    by_cases hp : p e = true
    · rw [List.find?_cons_of_pos _ hp]
      simp [List.filterMap_cons, hp]
    · rw [List.find?_cons_of_neg _ hp]
      simp only [List.filterMap_cons, if_neg hp]
      exact ih

theorem foldl_overwrite_eq_find_reverse {α β : Type} (p : α → Bool) (f : α → β) :
    ∀ (l : List α) (acc : Option β),
      l.foldl (fun a e => if p e then some (f e) else a) acc =
        match l.reverse.find? p with
        | some e => some (f e)
        | none => acc := by
  intro l
  induction l with
  | nil => intro acc; rfl
  | cons e es ih =>
    intro acc
    simp only [List.foldl_cons, List.reverse_cons, List.find?_append]
    rw [ih]
    cases hrev : es.reverse.find? p with
    | some x => simp [Option.or]
    | none =>
      by_cases hp : p e = true
      · simp [Option.or, List.find?, hp]
      · simp only [Option.or, List.find?]
        rw [if_neg hp]
        simp [Bool.not_eq_true] at hp
        simp [hp]

/-- The zipped `(interval, label)` list built by
`build_event_interval_index` is the parsed event table in table order. -/
theorem build_zip_eq_load :
    ((build_event_interval_index SPECIAL_EVENTS).1.zip
        (build_event_interval_index SPECIAL_EVENTS).2) =
      load_special_events.map fun e => ((e.2.1, e.2.2), e.1) := by
  decide

/-- C1 (amended): for every date, the scalar tagger returns the first
event in table order whose window contains the date, while the bulk
tagger returns the last such event; on any date contained in at most one
window — in particular on any date in no window — the two agree. -/
theorem mark_events_first_vs_last (d : CalDate) :
    mark_special_events d = (eventsContaining d).head? ∧
      mark_special_events_faster [d] = [(eventsContaining d).getLast?] ∧
      ((eventsContaining d).length ≤ 1 →
        mark_special_events_faster [d] = [mark_special_events d]) := by
  have hmark : mark_special_events d = (eventsContaining d).head? :=
    find_map_eq_head_filterMap _ _ load_special_events
  have hfast : mark_special_events_faster [d] = [(eventsContaining d).getLast?] := by
    show [(((build_event_interval_index SPECIAL_EVENTS).1.zip
        (build_event_interval_index SPECIAL_EVENTS).2).foldl
          (fun acc iv =>
            if dateLeb iv.1.1 d && dateLeb d iv.1.2 then some iv.2 else acc)
          none)] = _
    rw [build_zip_eq_load, List.foldl_map,
      foldl_overwrite_eq_find_reverse
        (fun e => dateLeb e.2.1 d && dateLeb d e.2.2) (fun e => e.1)
        load_special_events none]
    have : (load_special_events.reverse.find? fun e =>
          dateLeb e.2.1 d && dateLeb d e.2.2).map (fun e => e.1) =
        (eventsContaining d).getLast? := by
      rw [find_map_eq_head_filterMap _ _ load_special_events.reverse]
      show (List.filterMap _ load_special_events.reverse).head? = _
      rw [List.filterMap_reverse, List.head?_reverse]
      rfl
    cases hfind : load_special_events.reverse.find? fun e =>
        dateLeb e.2.1 d && dateLeb d e.2.2 with
    | some x =>
      rw [hfind] at this
      simp at this
      simp [this]
    | none =>
      rw [hfind] at this
      simp at this
      simp [this]
  refine ⟨hmark, hfast, ?_⟩
  intro hlen
  rw [hfast, hmark]
  rcases hev : eventsContaining d with _ | ⟨x, _ | ⟨y, rest⟩⟩
  · simp
  · simp
  · rw [hev] at hlen
    simp at hlen

/-- C1 (witness for the amended theorem): `2003-03-01` lies in exactly one
window (`"2003年SARS疫情"`), so the two taggers agree there. -/
theorem mark_events_first_vs_last_witness :
    mark_special_events_faster [⟨2003, 3, 1⟩] = [mark_special_events ⟨2003, 3, 1⟩] :=
  (mark_events_first_vs_last ⟨2003, 3, 1⟩).2.2 (by decide)

/-! ## Round-trip of the persisted cache file -/

theorem goodChar_of_isDigit {c : Char} (h : c.isDigit = true) : goodChar c = true := by
  by_cases h1 : c = '"'
  · subst h1
    exact absurd h (by decide)
  · by_cases h2 : c = '\\'
    · subst h2
      exact absurd h (by decide)
    · have b1 : (c == '"') = false := beq_eq_false_iff_ne.mpr h1
      have b2 : (c == '\\') = false := beq_eq_false_iff_ne.mpr h2
      simp [goodChar, b1, b2]

theorem goodIdx_of_wellFormed {idx : TradingDayIndex}
    (h : wellFormedIndex idx = true) : GoodIdx idx := by
  intro p hp
  rw [wellFormedIndex, List.all_eq_true] at h
  have hp2 := h p hp
  rw [Bool.and_eq_true] at hp2
  rcases hp2 with ⟨h1, h2⟩
  rw [fourDigits, Bool.and_eq_true, List.all_eq_true] at h1
  rw [List.all_eq_true] at h2
  refine ⟨fun c hc => goodChar_of_isDigit (h1.2 c hc), ?_⟩
  intro v hv c hc
  have := h2 v hv
  rw [fourDigits, Bool.and_eq_true, List.all_eq_true] at this
  exact goodChar_of_isDigit (this.2 c hc)

theorem dropWhile_good :
    ∀ (l r' : List Char), (∀ c ∈ l, goodChar c = true) →
      (l ++ '"' :: r').dropWhile goodChar = '"' :: r' := by
  intro l
  induction l with
  | nil => intro r' _; rfl
  | cons c cs ih =>
    intro r' h
    have hc : goodChar c = true := h c (by simp)
    simp only [List.cons_append, List.dropWhile_cons, hc, if_true]
    exact ih r' fun c' hc' => h c' (by simp [hc'])

theorem takeWhile_good :
    ∀ (l r' : List Char), (∀ c ∈ l, goodChar c = true) →
      (l ++ '"' :: r').takeWhile goodChar = l := by
  intro l
  induction l with
  | nil => intro r' _; rfl
  | cons c cs ih =>
    intro r' h
    have hc : goodChar c = true := h c (by simp)
    simp only [List.cons_append, List.takeWhile_cons, hc, if_true]
    rw [ih r' fun c' hc' => h c' (by simp [hc'])]

theorem parseStringLit_quote (s : String) (rest : List Char)
    (h : ∀ c ∈ s.data, goodChar c = true) :
    parseStringLit ('"' :: (s.data ++ '"' :: rest)) = some (s, rest) := by
  have hd := dropWhile_good s.data rest h
  have ht := takeWhile_good s.data rest h
  simp only [parseStringLit, hd, ht]

theorem parseItems_dump :
    ∀ (vs : List String) (v : String) (fuel : Nat) (rest : List Char),
      vs.length ≤ fuel →
      (∀ c ∈ v.data, goodChar c = true) →
      (∀ w ∈ vs, ∀ c ∈ w.data, goodChar c = true) →
      parseItems fuel ('\n' :: itemsR v vs ('\n' :: ' ' :: ' ' :: ']' :: rest)) =
        some (v :: vs, rest) := by
  intro vs
  induction vs with
  | nil =>
    intro v fuel rest _ hv _
    have hskip : skipWs ('\n' :: itemsR v [] ('\n' :: ' ' :: ' ' :: ']' :: rest)) =
        '"' :: (v.data ++ '"' :: ('\n' :: ' ' :: ' ' :: ']' :: rest)) := rfl
    have hskip2 : skipWs ('\n' :: ' ' :: ' ' :: ']' :: rest) = ']' :: rest := rfl
    cases fuel with
    | zero =>
      simp only [parseItems, hskip,
        parseStringLit_quote v ('\n' :: ' ' :: ' ' :: ']' :: rest) hv, hskip2]
    | succ fuel =>
      simp only [parseItems, hskip,
        parseStringLit_quote v ('\n' :: ' ' :: ' ' :: ']' :: rest) hv, hskip2]
  | cons w ws ih =>
    intro v fuel rest hlen hv hws
    cases fuel with
    | zero => simp at hlen
    | succ fuel =>
      have hskip : skipWs ('\n' ::
          itemsR v (w :: ws) ('\n' :: ' ' :: ' ' :: ']' :: rest)) =
          '"' :: (v.data ++ '"' ::
            (',' :: '\n' :: itemsR w ws ('\n' :: ' ' :: ' ' :: ']' :: rest))) := rfl
      have hskip2 : skipWs
          (',' :: '\n' :: itemsR w ws ('\n' :: ' ' :: ' ' :: ']' :: rest)) =
          ',' :: ('\n' :: itemsR w ws ('\n' :: ' ' :: ' ' :: ']' :: rest)) := rfl
      have hrec := ih w fuel rest (by simpa using Nat.le_of_succ_le_succ hlen)
        (hws w (by simp)) (fun w' hw' => hws w' (by simp [hw']))
      simp only [parseItems, hskip,
        parseStringLit_quote v
          (',' :: '\n' :: itemsR w ws ('\n' :: ' ' :: ' ' :: ']' :: rest)) hv,
        hskip2, hrec]

theorem parseEntry_dump (k : String) (vs : List String) (fuel : Nat)
    (rest : List Char) (hlen : vs.length ≤ fuel)
    (hk : ∀ c ∈ k.data, goodChar c = true)
    (hvs : ∀ v ∈ vs, ∀ c ∈ v.data, goodChar c = true) :
    parseEntry fuel ('\n' :: entryR k vs rest) = some ((k, vs), rest) := by
  have hskip : skipWs ('\n' :: entryR k vs rest) =
      '"' :: (k.data ++ '"' :: (':' :: ' ' :: arrR vs rest)) := rfl
  cases vs with
  | nil =>
    have hskipC : skipWs (':' :: ' ' :: arrR [] rest) =
        ':' :: (' ' :: arrR [] rest) := rfl
    have hskipD : skipWs (' ' :: arrR [] rest) = '[' :: (']' :: rest) := rfl
    have hskipE : skipWs (']' :: rest) = ']' :: rest := rfl
    simp only [parseEntry, hskip,
      parseStringLit_quote k (':' :: ' ' :: arrR [] rest) hk,
      hskipC, hskipD, parseArray, hskipE]
  | cons v vs' =>
    have hlen' : vs'.length ≤ fuel := by simp at hlen; omega
    have hitems := parseItems_dump vs' v fuel rest hlen'
      (hvs v (by simp))
      (fun w hw => hvs w (by simp [hw]))
    have harr : parseArray fuel
        ('\n' :: itemsR v vs' ('\n' :: ' ' :: ' ' :: ']' :: rest)) =
        some (v :: vs', rest) := by
      cases vs' with
      | nil =>
        have hskipA : skipWs ('\n' :: itemsR v [] ('\n' :: ' ' :: ' ' :: ']' :: rest)) =
            '"' :: (v.data ++ '"' :: ('\n' :: ' ' :: ' ' :: ']' :: rest)) := rfl
        simp only [parseArray, hskipA, hitems]
        rfl
      | cons w ws =>
        have hskipA : skipWs
            ('\n' :: itemsR v (w :: ws) ('\n' :: ' ' :: ' ' :: ']' :: rest)) =
            '"' :: (v.data ++ '"' ::
              (',' :: '\n' :: itemsR w ws ('\n' :: ' ' :: ' ' :: ']' :: rest))) := rfl
        simp only [parseArray, hskipA, hitems]
        rfl
    simp only [parseEntry, hskip,
      parseStringLit_quote k (':' :: ' ' :: arrR (v :: vs') rest) hk]
    have hskipC : skipWs (':' :: ' ' :: arrR (v :: vs') rest) =
        ':' :: (' ' :: arrR (v :: vs') rest) := rfl
    simp only [hskipC]
    have hskipD : skipWs (' ' :: arrR (v :: vs') rest) =
        '[' :: ('\n' :: itemsR v vs' ('\n' :: ' ' :: ' ' :: ']' :: rest)) := rfl
    simp only [hskipD, harr]

theorem parseEntries_dump :
    ∀ (es : TradingDayIndex) (e : String × List String) (fuel : Nat)
      (rest : List Char),
      needFuel (e :: es) ≤ fuel →
      GoodIdx (e :: es) →
      parseEntries fuel ('\n' :: entriesR e es ('\n' :: rbrace :: rest)) =
        some (e :: es, rest) := by
  intro es
  induction es with
  | nil =>
    intro e fuel rest hlen hg
    obtain ⟨k, vs⟩ := e
    have hke := hg (k, vs) (by simp)
    cases fuel with
    | zero => simp [needFuel] at hlen
    | succ fuel =>
      have hvs : vs.length ≤ fuel + 1 := by
        simp [needFuel] at hlen
        omega
      have hentry := parseEntry_dump k vs (fuel + 1) ('\n' :: rbrace :: rest)
        hvs hke.1 hke.2
      have hskip : skipWs ('\n' :: rbrace :: rest) = rbrace :: rest := rfl
      show parseEntries (fuel + 1) ('\n' :: entryR k vs ('\n' :: rbrace :: rest)) = _
      simp only [parseEntries, hentry, hskip, eq_self_iff_true, if_true]
  | cons e' es' ih =>
    intro e fuel rest hlen hg
    obtain ⟨k, vs⟩ := e
    have hke := hg (k, vs) (by simp)
    cases fuel with
    | zero => simp [needFuel] at hlen
    | succ fuel =>
      have hlen2 : max vs.length (needFuel (e' :: es')) + 1 ≤ fuel + 1 := hlen
      have hmax := Nat.max_le.mp (Nat.le_of_succ_le_succ hlen2)
      have hvs : vs.length ≤ fuel + 1 := by omega
      have hrecfuel : needFuel (e' :: es') ≤ fuel := hmax.2
      have hentry := parseEntry_dump k vs (fuel + 1)
        (',' :: '\n' :: entriesR e' es' ('\n' :: rbrace :: rest)) hvs hke.1 hke.2
      have hskip : skipWs
          (',' :: '\n' :: entriesR e' es' ('\n' :: rbrace :: rest)) =
          ',' :: ('\n' :: entriesR e' es' ('\n' :: rbrace :: rest)) := rfl
      have hrec := ih e' fuel rest hrecfuel
        (fun p hp => hg p (by simp [hp]))
      show parseEntries (fuel + 1)
          ('\n' :: entryR k vs
            (',' :: '\n' :: entriesR e' es' ('\n' :: rbrace :: rest))) = _
      have hcomma_ne : (',' : Char) ≠ rbrace := by decide
      simp only [parseEntries, hentry, hskip, if_neg hcomma_ne, eq_self_iff_true,
        if_true, hrec]

theorem itemsR_length_ge :
    ∀ (vs : List String) (v : String) (rest : List Char),
      vs.length + 1 ≤ (itemsR v vs rest).length ∧
        rest.length ≤ (itemsR v vs rest).length := by
  intro vs
  induction vs with
  | nil =>
    intro v rest
    simp [itemsR, itemR, quoteR]
    omega
  | cons w ws ih =>
    intro v rest
    have := ih w rest
    simp only [itemsR, itemR, quoteR] at *
    simp only [List.length_cons, List.length_append] at *
    omega

theorem arrR_length_ge (vs : List String) (rest : List Char) :
    vs.length + 1 ≤ (arrR vs rest).length ∧ rest.length ≤ (arrR vs rest).length := by
  cases vs with
  | nil => simp [arrR]; omega
  | cons v vs' =>
    have := itemsR_length_ge vs' v ('\n' :: ' ' :: ' ' :: ']' :: rest)
    simp only [arrR, List.length_cons] at *
    omega

theorem entryR_length_ge (k : String) (vs : List String) (rest : List Char) :
    vs.length + 1 ≤ (entryR k vs rest).length ∧
      rest.length ≤ (entryR k vs rest).length := by
  have := arrR_length_ge vs rest
  simp only [entryR, quoteR, List.length_cons, List.length_append] at *
  omega

theorem entriesR_length_ge :
    ∀ (es : TradingDayIndex) (e : String × List String) (rest : List Char),
      needFuel (e :: es) ≤ (entriesR e es rest).length := by
  intro es
  induction es with
  | nil =>
    intro e rest
    obtain ⟨k, vs⟩ := e
    have := entryR_length_ge k vs rest
    simp only [needFuel, entriesR]
    omega
  | cons e' es' ih =>
    intro e rest
    obtain ⟨k, vs⟩ := e
    have h1 := entryR_length_ge k vs
      (',' :: '\n' :: entriesR e' es' rest)
    have h2 := ih e' rest
    simp only [needFuel, entriesR, List.length_cons] at *
    omega

/-- C7: dumping a well-formed `TradingDayIndex` with `json.dump(...,
indent=2)` and loading the file back with `json.load` returns exactly the
index that was saved. -/
theorem json_roundtrip (idx : TradingDayIndex) (h : wellFormedIndex idx = true) :
    json_load (json_dump idx) = some idx := by
  have hg : GoodIdx idx := goodIdx_of_wellFormed h
  cases idx with
  | nil => decide
  | cons e es =>
    obtain ⟨k, vs⟩ := e
    have hstep : json_load (json_dump ((k, vs) :: es)) =
        (match parseEntries (json_dump ((k, vs) :: es)).data.length
            ('\n' :: entriesR (k, vs) es ['\n', rbrace]) with
         | some (es', rest) => if skipWs rest = [] then some es' else none
         | none => none) := by
      cases es with
      | nil => rfl
      | cons e2 es2 => rfl
    have hfuel : needFuel ((k, vs) :: es) ≤
        (json_dump ((k, vs) :: es)).data.length := by
      have := entriesR_length_ge es (k, vs) ['\n', rbrace]
      show _ ≤ (dumpChars ((k, vs) :: es)).length
      simp only [dumpChars, List.length_cons]
      omega
    have hparse := parseEntries_dump es (k, vs)
      (json_dump ((k, vs) :: es)).data.length [] hfuel hg
    rw [hstep, hparse]
    rfl

/-- C7 (witness): a concrete two-year well-formed index survives the
round trip. -/
theorem json_roundtrip_witness :
    wellFormedIndex [("2024", ["0102", "0104"]), ("2025", [])] = true ∧
      json_load (json_dump [("2024", ["0102", "0104"]), ("2025", [])]) =
        some [("2024", ["0102", "0104"]), ("2025", [])] :=
  ⟨by decide, json_roundtrip [("2024", ["0102", "0104"]), ("2025", [])] (by decide)⟩

end Pytrade
